import Mathlib

/-!
Verification of the python-augeas binding specification.

The repository source (`augeas.py`) is a thin ctypes layer that forwards
`get`, `set`, `insert`, `remove`, `match`, `save`, `write` and `close` to the
native augeas engine.  The engine itself (tree model, path-expression matcher,
mutation operations) is not part of the repository source, so it is modelled
here from the specification: an ordered tree of labelled nodes, path
expressions made of segments (`*`, `label`, `label[N]`, `label[last()]`), and
the mutation contract of the specification's section 4.  The session layer
(closed-handle checks, the collapse of save failures into a single
engine-wide error) follows the binding source.
-/

set_option maxHeartbeats 1000000

namespace Aug

/-- Modelled from the spec: the error taxonomy of section 7.  The binding
source collapses engine failures into generic exceptions; the specification
names them individually. -/
inductive AugErr : Type where
  | malformedExpr : AugErr
  | ambiguousPath : AugErr
  | invalidLabel : AugErr
  | setError : AugErr
  | saveError : AugErr
  | sessionClosed : AugErr
deriving DecidableEq

/-- Modelled from the spec: a tree node (section 3): a label, an optional
value (absence distinct from the empty string), and an ordered list of
children.  The engine tree lives in the external native library. -/
inductive Node : Type where
  | mk : String → Option String → List Node → Node

/-- Label of a node. -/
def Node.label : Node → String
  | .mk l _ _ => l

/-- Optional value of a node. -/
def Node.value : Node → Option String
  | .mk _ v _ => v

/-- Ordered children of a node. -/
def Node.children : Node → List Node
  | .mk _ _ cs => cs

mutual

/-- Total number of nodes in the subtree rooted at a node (the node itself
plus all of its descendants). -/
def Node.size : Node → Nat
  | .mk _ _ cs => 1 + sizeList cs

/-- Total number of nodes in a forest. -/
def sizeList : List Node → Nat
  | [] => 0
  | c :: cs => Node.size c + sizeList cs

end

/-- Modelled from the spec: one segment of a path expression (section 3):
a wildcard, a bare label, a label with 1-based index, or a label with the
`last()` selector. -/
inductive Seg : Type where
  | any : Seg
  | label : String → Seg
  | labelIdx : String → Nat → Seg
  | labelLast : String → Seg
deriving DecidableEq

/-- A concrete path: a sequence of (label, 1-based index) components, as
produced by the matcher for its fully qualified results. -/
abbrev CPath := List (String × Nat)

/-- Number of children carrying a given label. -/
def countLabel (l : String) (cs : List Node) : Nat :=
  (cs.map Node.label).count l

/-- Children annotated with their label and their 1-based index among
same-labelled siblings, starting from the counts in `cnt`. -/
def indexedFrom (cnt : String → Nat) : List Node → List (String × Nat × Node)
  | [] => []
  | c :: cs =>
    (c.label, cnt c.label + 1, c) ::
      indexedFrom (fun l => if l = c.label then cnt l + 1 else cnt l) cs

/-- Children annotated with label and 1-based sibling index. -/
def indexed (cs : List Node) : List (String × Nat × Node) :=
  indexedFrom (fun _ => 0) cs

/-- Sibling counts of `cnt` increased by the labels occurring in `cs`. -/
def bump (cnt : String → Nat) (cs : List Node) : String → Nat :=
  fun l => cnt l + countLabel l cs

/-- Modelled from the spec: whether a segment matches a child with label `l`
and sibling index `i`, where `tot` is the number of siblings sharing label
`l` (used by the `last()` selector). -/
def segMatches : Seg → String → Nat → Nat → Bool
  | .any, _, _, _ => true
  | .label l2, l, _, _ => l == l2
  | .labelIdx l2 k, l, i, _ => l == l2 && i == k
  | .labelLast l2, l, i, tot => l == l2 && i == tot

/-- Children of a node selected by one segment, in sibling order, each with
its concrete (label, index) component. -/
def sel (s : Seg) (cs : List Node) : List (String × Nat × Node) :=
  (indexed cs).filter (fun t => segMatches s t.1 t.2.1 (countLabel t.1 cs))

/-- Modelled from the spec: the path-expression matcher (section 4.2).
Starting from a working set holding the root, each segment expands every
matched node to its matching children in sibling order; every result carries
its fully qualified concrete path. -/
def matchFrom : List Seg → Node → List (CPath × Node)
  | [], n => [([], n)]
  | s :: rest, n =>
    (sel s n.children).flatMap (fun t =>
      (matchFrom rest t.2.2).map (fun pm => ((t.1, t.2.1) :: pm.1, pm.2)))

/-- The `match` operation: the fully qualified concrete paths of all nodes
matched by an expression. -/
def matchPaths (n : Node) (e : List Seg) : List CPath :=
  (matchFrom e n).map Prod.fst

/-- A concrete path read back as a path expression (all segments fully
indexed). -/
def toExpr (p : CPath) : List Seg :=
  p.map (fun q => Seg.labelIdx q.1 q.2)

/-- Modelled from the spec: `get` (section 4.3).  More than one match is an
ambiguity error; zero matches yield the null result, exactly as the binding
source returns the untouched null pointer; one match yields the node's
optional value (a valueless node also yields the null result). -/
def getPath (n : Node) (e : List Seg) : Except AugErr (Option String) :=
  match matchFrom e n with
  | [] => .ok none
  | [t] => .ok t.2.value
  | _ => .error .ambiguousPath

/-- Replace the child carrying concrete component (l, i) by the image of `g`,
leaving all other children unchanged. -/
def mapAtKey (cs : List Node) (l : String) (i : Nat) (g : Node → Node) : List Node :=
  (indexed cs).map (fun t => if t.1 = l ∧ t.2.1 = i then g t.2.2 else t.2.2)

/-- Overwrite the value of the node at a concrete path, in place. -/
def updateAt : Node → CPath → String → Node
  | n, [], v => Node.mk n.label (some v) n.children
  | n, q :: rest, v =>
    Node.mk n.label n.value
      (mapAtKey n.children q.1 q.2 (fun c => updateAt c rest v))

/-- A freshly created node: the given label, no value, no children. -/
def newNode (l : String) : Node :=
  Node.mk l none []

/-- Modelled from the spec: creation of the missing chain of nodes for `set`
(section 4.3).  Descends through segments that match exactly one existing
child; a segment with no match is created when it is a bare label or the
label with the next free index (only `label` and `label[N]` segments are
creatable; a wildcard or `last()` segment with no match is a `SetError`);
a segment matching several children is an ambiguity error. -/
def createSet : Node → List Seg → String → Except AugErr Node
  | n, [], v => .ok (Node.mk n.label (some v) n.children)
  | n, s :: rest, v =>
    match sel s n.children with
    | [] =>
      match s with
      | .label l =>
        (createSet (newNode l) rest v).map
          (fun c => Node.mk n.label n.value (n.children ++ [c]))
      | .labelIdx l i =>
        if i = countLabel l n.children + 1 then
          (createSet (newNode l) rest v).map
            (fun c => Node.mk n.label n.value (n.children ++ [c]))
        else .error .setError
      | _ => .error .setError
    | [t] =>
      (createSet t.2.2 rest v).map
        (fun c => Node.mk n.label n.value (mapAtKey n.children t.1 t.2.1 (fun _ => c)))
    | _ => .error .ambiguousPath

/-- Modelled from the spec: `set` (section 4.3).  More than one match of the
full path is an ambiguity error; exactly one match has its value overwritten
in place; zero matches trigger creation of the missing chain. -/
def setPath (n : Node) (e : List Seg) (v : String) : Except AugErr Node :=
  match matchFrom e n with
  | [] => createSet n e v
  | [t] => .ok (updateAt n t.1 v)
  | _ => .error .ambiguousPath

/-- Modelled from the spec: `remove` (section 4.3).  Every node matched by
the expression is removed together with its full subtree; the returned count
includes all subtree members.  Matching nothing removes nothing. -/
def removeFrom : List Seg → Node → Node × Nat
  | [], n => (n, 0)
  | s :: rest, n =>
    let r :=
      (indexed n.children).foldr (fun t acc =>
        if segMatches s t.1 t.2.1 (countLabel t.1 n.children) then
          match rest with
          | [] => (acc.1, acc.2 + t.2.2.size)
          | _ :: _ =>
            let rc := removeFrom rest t.2.2
            (rc.1 :: acc.1, acc.2 + rc.2)
        else (t.2.2 :: acc.1, acc.2)) ([], 0)
    (Node.mk n.label n.value r.1, r.2)

/-- Insert a fresh valueless node labelled `lbl` immediately before (or
after) the child carrying concrete component (l, i), keeping all other
siblings in order. -/
def insertSib (cs : List Node) (l : String) (i : Nat) (lbl : String) (before : Bool) : List Node :=
  (indexed cs).flatMap (fun t =>
    if t.1 = l ∧ t.2.1 = i then
      if before then [newNode lbl, t.2.2] else [t.2.2, newNode lbl]
    else [t.2.2])

/-- Walk a concrete path and insert a fresh sibling next to its final
component. -/
def insertAtC : Node → CPath → String → Bool → Node
  | n, [], _, _ => n
  | n, q :: rest, lbl, before =>
    match rest with
    | [] => Node.mk n.label n.value (insertSib n.children q.1 q.2 lbl before)
    | _ :: _ =>
      Node.mk n.label n.value
        (mapAtKey n.children q.1 q.2 (fun c => insertAtC c rest lbl before))

/-- Whether a string ends with a bracketed numeric index such as `[7]`. -/
def endsWithIndex (s : String) : Bool :=
  match s.data.reverse with
  | ']' :: rest =>
    let ds := rest.takeWhile Char.isDigit
    !ds.isEmpty && ((rest.drop ds.length).head? == some '[')
  | _ => false

/-- Modelled from the spec: a valid label for `insert` contains no slash, no
wildcard star, and does not end with a bracketed index suffix. -/
def validLabel (s : String) : Bool :=
  !(s.data.contains '/') && !(s.data.contains '*') && !(endsWithIndex s)

/-- Modelled from the spec: `insert` (section 4.3).  The path must match
exactly one existing node, otherwise the call is an ambiguity error; an
invalid label is a label error; on success a fresh valueless sibling is
placed immediately before or after the matched node. -/
def insertPath (n : Node) (e : List Seg) (lbl : String) (before : Bool) : Except AugErr Node :=
  match matchFrom e n with
  | [t] =>
    if validLabel lbl then .ok (insertAtC n t.1 lbl before)
    else .error .invalidLabel
  | _ => .error .ambiguousPath

/-- One source file known to the engine: its name, whether it has pending
changes, and whether the underlying write can succeed. -/
structure SFile : Type where
  name : String
  dirty : Bool
  writable : Bool
deriving DecidableEq

/-- Modelled from the spec: the save pass of the engine (section 4.4).
Every pending (dirty) file is attempted: a failure on one file does not
prevent attempting the remaining files.  Returns the files after the pass
and the names of the files whose write failed. -/
def saveEngine : List SFile → List SFile × List String
  | [] => ([], [])
  | f :: fs =>
    let r := saveEngine fs
    if f.dirty then
      if f.writable then (SFile.mk f.name false f.writable :: r.1, r.2)
      else (f :: r.1, f.name :: r.2)
    else (f :: r.1, r.2)

/-- A binding session: the tree, the engine's file table, and the open flag
guarded by every operation of the binding source. -/
structure Session : Type where
  tree : Node
  files : List SFile
  opened : Bool

/-- The binding's `get`: closed-handle check, then the engine lookup. -/
def Session.get (s : Session) (e : List Seg) : Except AugErr (Option String) :=
  if s.opened then getPath s.tree e else .error .sessionClosed

/-- The binding's `set`: closed-handle check, then the engine update. -/
def Session.set (s : Session) (e : List Seg) (v : String) : Except AugErr Session :=
  if s.opened then (setPath s.tree e v).map (fun t => Session.mk t s.files s.opened)
  else .error .sessionClosed

/-- The binding's `insert`: closed-handle check, then the engine insertion. -/
def Session.insert (s : Session) (e : List Seg) (lbl : String) (before : Bool) :
    Except AugErr Session :=
  if s.opened then
    (insertPath s.tree e lbl before).map (fun t => Session.mk t s.files s.opened)
  else .error .sessionClosed

/-- The binding's `remove`: closed-handle check, then the engine removal,
returning the number of entries removed.  Matching nothing is not an
error. -/
def Session.remove (s : Session) (e : List Seg) : Except AugErr (Nat × Session) :=
  if s.opened then
    let r := removeFrom e s.tree
    .ok (r.2, Session.mk r.1 s.files s.opened)
  else .error .sessionClosed

/-- The binding's `match`: closed-handle check, then the list of fully
qualified concrete paths. -/
def Session.matchOp (s : Session) (e : List Seg) : Except AugErr (List CPath) :=
  if s.opened then .ok (matchPaths s.tree e) else .error .sessionClosed

/-- The binding's `save`: closed-handle check, then the engine save pass.
Following the binding source, any failure is reported as one engine-wide
error value that carries no identification of the failing file. -/
def Session.save (s : Session) : Except AugErr Session :=
  if s.opened then
    let r := saveEngine s.files
    if r.2.isEmpty then .ok (Session.mk s.tree r.1 s.opened)
    else .error .saveError
  else .error .sessionClosed

/-- The binding's `write`: closed-handle check, then the matched subtrees
handed to the output sink. -/
def Session.write (s : Session) (e : List Seg) : Except AugErr (List (CPath × Node)) :=
  if s.opened then .ok (matchFrom e s.tree) else .error .sessionClosed

/-- The binding's `close`: already-closed sessions are left untouched, so a
second call is a no-op; the open flag is cleared and never raised again. -/
def Session.close (s : Session) : Session :=
  Session.mk s.tree s.files false

/-- Example node of the spec's running example: a host with value a. -/
def exHostA : Node := Node.mk "host" (some "a") []

/-- Example node of the spec's running example: a host with value b. -/
def exHostB : Node := Node.mk "host" (some "b") []

/-- Example tree of the spec's running example: a root with two host
children. -/
def exRoot2 : Node := Node.mk "" none [exHostA, exHostB]

/-- Example tree: a root with one childless host. -/
def exRoot1 : Node := Node.mk "" none [exHostA]

/-- Example tree: an empty root. -/
def exEmpty : Node := Node.mk "" none []

/-- Example tree resulting from the spec's example set on an empty tree. -/
def exNewLeaf : Node :=
  Node.mk "" none [Node.mk "new" none [Node.mk "leaf" (some "x") []]]

/-- Example tree with one valueless child and one empty-string child. -/
def exMixed : Node :=
  Node.mk "" none [Node.mk "a" none [], Node.mk "b" (some "") []]

/-- Example open session over the two-host tree with no pending files. -/
def exSession2 : Session := Session.mk exRoot2 [] true

/-- A creatable segment of the spec: a bare label or an explicitly indexed
label; wildcard and last() segments are not creatable. -/
def creatableSeg : Seg → Bool
  | .label _ => true
  | .labelIdx _ _ => true
  | _ => false

theorem Node.label_mk (l : String) (v : Option String) (cs : List Node) :
    (Node.mk l v cs).label = l := rfl

theorem Node.value_mk (l : String) (v : Option String) (cs : List Node) :
    (Node.mk l v cs).value = v := rfl

theorem Node.children_mk (l : String) (v : Option String) (cs : List Node) :
    (Node.mk l v cs).children = cs := rfl

/-- Every subtree holds at least the node itself. -/
theorem Node.size_pos (n : Node) : 0 < n.size := by
  cases n with
  | mk l v cs =>
    rw [Node.size]
    omega

theorem countLabel_nil (l : String) : countLabel l [] = 0 := rfl

theorem countLabel_cons (l : String) (c : Node) (cs : List Node) :
    countLabel l (c :: cs) = countLabel l cs + (if c.label = l then 1 else 0) := by
  simp [countLabel, List.count_cons]

theorem countLabel_append (l : String) (xs ys : List Node) :
    countLabel l (xs ++ ys) = countLabel l xs + countLabel l ys := by
  simp [countLabel]

theorem indexedFrom_nil (cnt : String → Nat) : indexedFrom cnt [] = [] := rfl

theorem indexedFrom_cons (cnt : String → Nat) (c : Node) (cs : List Node) :
    indexedFrom cnt (c :: cs) = (c.label, cnt c.label + 1, c) ::
      indexedFrom (fun l => if l = c.label then cnt l + 1 else cnt l) cs := rfl

/-- The annotated children enumerate exactly the children, in order. -/
theorem indexedFrom_nodes (cs : List Node) :
    ∀ cnt, (indexedFrom cnt cs).map (fun t => t.2.2) = cs := by
  induction cs with
  | nil => intro cnt; rfl
  | cons c cs ih =>
    intro cnt
    rw [indexedFrom_cons, List.map_cons, ih]

/-- Splitting the annotated children of an appended list. -/
theorem indexedFrom_append (xs ys : List Node) :
    ∀ cnt, indexedFrom cnt (xs ++ ys) =
      indexedFrom cnt xs ++ indexedFrom (bump cnt xs) ys := by
  induction xs with
  | nil =>
    intro cnt
    rfl
  | cons x xs ih =>
    intro cnt
    rw [List.cons_append, indexedFrom_cons, ih, indexedFrom_cons, List.cons_append]
    have hb : bump (fun l => if l = x.label then cnt l + 1 else cnt l) xs =
        bump cnt (x :: xs) := by
      funext l
      simp only [bump, countLabel_cons]
      by_cases h : l = x.label
      · rw [if_pos h, if_pos h.symm]
        omega
      · rw [if_neg h, if_neg (fun hh => h hh.symm)]
        omega
    rw [hb]

/-- A membership in the annotated children pins down the label and bounds
the index. -/
theorem mem_indexedFrom_bounds (l : String) (i : Nat) (c : Node) (cs : List Node) :
    ∀ cnt, (l, i, c) ∈ indexedFrom cnt cs →
      c.label = l ∧ cnt l < i ∧ i ≤ cnt l + countLabel l cs := by
  induction cs with
  | nil => intro cnt h; simp [indexedFrom_nil] at h
  | cons x xs ih =>
    intro cnt h
    rw [indexedFrom_cons] at h
    rcases List.mem_cons.mp h with h1 | h2
    · rw [Prod.mk.injEq, Prod.mk.injEq] at h1
      obtain ⟨hl, hi, hc⟩ := h1
      subst hl
      subst hc
      refine ⟨rfl, ?_, ?_⟩
      · omega
      · rw [countLabel_cons, if_pos rfl]
        omega
    · obtain ⟨hcl, hlo, hhi⟩ := ih _ h2
      refine ⟨hcl, ?_, ?_⟩
      · by_cases h : l = x.label
        · rw [if_pos h] at hlo; omega
        · rw [if_neg h] at hlo; omega
      · rw [countLabel_cons]
        by_cases h : l = x.label
        · rw [if_pos h] at hhi
          rw [if_pos h.symm]
          omega
        · rw [if_neg h] at hhi
          rw [if_neg (fun hh => h hh.symm)]
          omega

/-- A member of the annotated children splits the list around its node, and
its index is determined by the prefix. -/
theorem mem_indexedFrom_split (l : String) (i : Nat) (c : Node) (cs : List Node) :
    ∀ cnt, (l, i, c) ∈ indexedFrom cnt cs →
      ∃ pre post, cs = pre ++ c :: post ∧ c.label = l ∧
        i = cnt l + countLabel l pre + 1 := by
  induction cs with
  | nil => intro cnt h; simp [indexedFrom_nil] at h
  | cons x xs ih =>
    intro cnt h
    rw [indexedFrom_cons] at h
    rcases List.mem_cons.mp h with h1 | h2
    · rw [Prod.mk.injEq, Prod.mk.injEq] at h1
      obtain ⟨hl, hi, hc⟩ := h1
      subst hl
      subst hc
      exact ⟨[], xs, rfl, rfl, by rw [countLabel_nil]; omega⟩
    · obtain ⟨pre, post, hx, hcl, hi⟩ := ih _ h2
      refine ⟨x :: pre, post, by rw [hx, List.cons_append], hcl, ?_⟩
      rw [countLabel_cons]
      by_cases h : l = x.label
      · rw [if_pos h] at hi
        rw [if_pos h.symm]
        omega
      · rw [if_neg h] at hi
        rw [if_neg (fun hh => h hh.symm)]
        omega

/-- A (label, index) key occurring among the annotated children is unique:
any filter keeping only that key keeps exactly the one member. -/
theorem indexedFrom_filter_key (l : String) (i : Nat) (c : Node) (cs : List Node)
    (cnt : String → Nat) (hmem : (l, i, c) ∈ indexedFrom cnt cs)
    (P : String × Nat × Node → Bool)
    (hP : ∀ u, P u = true → u.1 = l ∧ u.2.1 = i) (hPc : P (l, i, c) = true) :
    (indexedFrom cnt cs).filter P = [(l, i, c)] := by
  obtain ⟨pre, post, rfl, hcl, hi⟩ := mem_indexedFrom_split l i c _ cnt hmem
  rw [indexedFrom_append, indexedFrom_cons]
  simp only [hcl]
  have hkey : bump cnt pre l + 1 = i := by
    simp only [bump]
    omega
  rw [hkey]
  rw [List.filter_append, List.filter_cons, if_pos hPc]
  have hpre : (indexedFrom cnt pre).filter P = [] := by
    rw [List.filter_eq_nil_iff]
    intro u hu hPu
    obtain ⟨u1, u2, u3⟩ := u
    obtain ⟨h1, h2⟩ := hP _ hPu
    simp only at h1 h2
    rw [h1, h2] at hu
    obtain ⟨_, _, hub⟩ := mem_indexedFrom_bounds l i u3 pre cnt hu
    omega
  have hpost : (indexedFrom
      (fun l2 => if l2 = l then bump cnt pre l2 + 1 else bump cnt pre l2) post).filter P = [] := by
    rw [List.filter_eq_nil_iff]
    intro u hu hPu
    obtain ⟨u1, u2, u3⟩ := u
    obtain ⟨h1, h2⟩ := hP _ hPu
    simp only at h1 h2
    rw [h1, h2] at hu
    obtain ⟨_, hlo, _⟩ := mem_indexedFrom_bounds l i u3 post _ hu
    rw [if_pos rfl] at hlo
    omega
  rw [hpre, hpost]
  rfl

/-- A selected child is one of the annotated children. -/
theorem sel_sub (s : Seg) (cs : List Node) (u : String × Nat × Node)
    (h : u ∈ sel s cs) : u ∈ indexed cs :=
  (List.mem_filter.mp h).1

/-- A fully indexed segment selects exactly the child carrying its key. -/
theorem sel_labelIdx_of_mem (l : String) (i : Nat) (c : Node) (cs : List Node)
    (hmem : (l, i, c) ∈ indexed cs) :
    sel (Seg.labelIdx l i) cs = [(l, i, c)] := by
  rw [sel]
  refine indexedFrom_filter_key l i c cs _ hmem _ ?_ ?_
  · intro u hu
    simpa [segMatches] using hu
  · simp [segMatches]

theorem matchFrom_nilE (n : Node) : matchFrom [] n = [([], n)] := rfl

theorem matchFrom_consE (s : Seg) (rest : List Seg) (n : Node) :
    matchFrom (s :: rest) n = (sel s n.children).flatMap (fun t =>
      (matchFrom rest t.2.2).map (fun pm => ((t.1, t.2.1) :: pm.1, pm.2))) := rfl

theorem toExpr_nil : toExpr [] = [] := rfl

theorem toExpr_cons (q : String × Nat) (p : CPath) :
    toExpr (q :: p) = Seg.labelIdx q.1 q.2 :: toExpr p := rfl

/-- Re-evaluating the concrete path of any match resolves to exactly that
node: returned paths are fully qualified and unique. -/
theorem matchFrom_toExpr (e : List Seg) :
    ∀ (n : Node) (p : CPath) (m : Node), (p, m) ∈ matchFrom e n →
      matchFrom (toExpr p) n = [(p, m)] := by
  induction e with
  | nil =>
    intro n p m h
    rw [matchFrom_nilE] at h
    have h2 := List.mem_singleton.mp h
    rw [Prod.mk.injEq] at h2
    obtain ⟨rfl, rfl⟩ := h2
    rfl
  | cons s rest ih =>
    intro n p m h
    rw [matchFrom_consE] at h
    obtain ⟨t, ht, hm⟩ := List.mem_flatMap.mp h
    obtain ⟨pm, hpm, heq⟩ := List.mem_map.mp hm
    obtain ⟨l, i, c⟩ := t
    obtain ⟨p2, m2⟩ := pm
    rw [Prod.mk.injEq] at heq
    obtain ⟨hp, hmm⟩ := heq
    simp only at hp hmm
    subst hp
    subst hmm
    rw [toExpr_cons]
    rw [matchFrom_consE]
    rw [sel_labelIdx_of_mem l i c _ (sel_sub _ _ _ ht)]
    simp [ih c p2 m2 hpm]

/-- C1: every path returned by match is fully qualified: re-evaluated
immediately, it resolves to exactly one node, and get on it returns that
node's value — in particular it never raises the ambiguity error. -/
theorem c1_match_paths_unique (n : Node) (e : List Seg) (p : CPath)
    (hp : p ∈ matchPaths n e) :
    ∃ m, matchFrom (toExpr p) n = [(p, m)] ∧ getPath n (toExpr p) = .ok m.value := by
  obtain ⟨pm, hpm, hfst⟩ := List.mem_map.mp hp
  obtain ⟨p2, m⟩ := pm
  simp only at hfst
  subst hfst
  have hres := matchFrom_toExpr e n p2 m hpm
  refine ⟨m, hres, ?_⟩
  simp only [getPath, hres]

/-- Witness for C1: on the spec's two-host example, the first returned path
re-resolves uniquely and get succeeds on it. -/
theorem c1_witness :
    [("host", 1)] ∈ matchPaths exRoot2 [Seg.label "host"] ∧
    ∃ m, matchFrom (toExpr [("host", 1)]) exRoot2 = [([("host", 1)], m)] ∧
      getPath exRoot2 (toExpr [("host", 1)]) = .ok m.value := by
  refine ⟨?_, c1_match_paths_unique exRoot2 [Seg.label "host"] [("host", 1)] ?_⟩ <;> decide

/-- A flatMap equal to a singleton has exactly one contributing element;
every other element contributes nothing. -/
theorem flatMap_eq_singleton {α β : Type} (xs : List α) (f : α → List β) (a : β)
    (h : xs.flatMap f = [a]) :
    ∃ ys x zs, xs = ys ++ x :: zs ∧ f x = [a] ∧
      (∀ y ∈ ys, f y = []) ∧ (∀ z ∈ zs, f z = []) := by
  induction xs with
  | nil => simp at h
  | cons x xs ih =>
    rw [List.flatMap_cons] at h
    cases hfx : f x with
    | nil =>
      rw [hfx, List.nil_append] at h
      obtain ⟨ys, x2, zs, h1, h2, h3, h4⟩ := ih h
      refine ⟨x :: ys, x2, zs, by rw [h1]; rfl, h2, ?_, h4⟩
      intro y hy
      rcases List.mem_cons.mp hy with hy1 | hy2
      · rw [hy1]; exact hfx
      · exact h3 y hy2
    | cons b bs =>
      rw [hfx, List.cons_append] at h
      injection h with h1 h2
      rcases List.append_eq_nil.mp h2 with ⟨hbs, hz⟩
      refine ⟨[], x, xs, rfl, by rw [hfx, h1, hbs], by intro y hy; simp at hy, ?_⟩
      intro z hz2
      exact (List.flatMap_eq_nil_iff.mp hz) z hz2

/-- An Except map yielding a success comes from a success. -/
theorem map_eq_ok {α β : Type} (f : α → β) (x : Except AugErr α) (b : β)
    (h : x.map f = .ok b) : ∃ a, x = .ok a ∧ b = f a := by
  cases x with
  | ok a =>
    refine ⟨a, rfl, ?_⟩
    have : Except.ok (f a) = (Except.ok b : Except AugErr β) := h
    injection this with h2
    rw [h2]
  | error err => simp [Except.map] at h

/-- Updating a value never changes the label. -/
theorem updateAt_label (p : CPath) (n : Node) (v : String) :
    (updateAt n p v).label = n.label := by
  cases p <;> rfl

/-- No annotated child of a short prefix carries an index reaching past the
prefix. -/
theorem no_key_pre (l : String) (i : Nat) (pre : List Node) (cnt : String → Nat)
    (hub : cnt l + countLabel l pre < i) :
    ∀ t ∈ indexedFrom cnt pre, ¬(t.1 = l ∧ t.2.1 = i) := by
  intro t ht hk
  obtain ⟨t1, t2, t3⟩ := t
  obtain ⟨h1, h2⟩ := hk
  simp only at h1 h2
  rw [h1, h2] at ht
  obtain ⟨_, _, hb⟩ := mem_indexedFrom_bounds l i t3 pre cnt ht
  omega

/-- No annotated child past a position carries the index of that position. -/
theorem no_key_post (l : String) (i : Nat) (post : List Node) (cnt : String → Nat)
    (hlb : i ≤ cnt l) :
    ∀ t ∈ indexedFrom cnt post, ¬(t.1 = l ∧ t.2.1 = i) := by
  intro t ht hk
  obtain ⟨t1, t2, t3⟩ := t
  obtain ⟨h1, h2⟩ := hk
  simp only at h1 h2
  rw [h1, h2] at ht
  obtain ⟨_, hlo, _⟩ := mem_indexedFrom_bounds l i t3 post cnt ht
  omega

/-- Replacing at a key rewrites exactly the split position. -/
theorem mapAtKey_split (l : String) (i : Nat) (c : Node) (pre post : List Node)
    (hcl : c.label = l) (hi : i = countLabel l pre + 1) (g : Node → Node) :
    mapAtKey (pre ++ c :: post) l i g = pre ++ g c :: post := by
  simp only [mapAtKey, indexed, indexedFrom_append, indexedFrom_cons, List.map_append,
    List.map_cons]
  have hpre : ∀ t ∈ indexedFrom (fun _ => 0) pre,
      (if t.1 = l ∧ t.2.1 = i then g t.2.2 else t.2.2) = t.2.2 := by
    intro t ht
    rw [if_neg (no_key_pre l i pre _ (by omega) t ht)]
  have hpost : ∀ t ∈ indexedFrom
      (fun l2 => if l2 = c.label then bump (fun _ => 0) pre l2 + 1 else bump (fun _ => 0) pre l2)
      post, (if t.1 = l ∧ t.2.1 = i then g t.2.2 else t.2.2) = t.2.2 := by
    intro t ht
    refine if_neg (no_key_post l i post _ ?_ t ht)
    rw [hcl, if_pos rfl]
    simp only [bump]
    omega
  rw [List.map_congr_left hpre, List.map_congr_left hpost, indexedFrom_nodes,
    indexedFrom_nodes]
  have hmid : (c.label = l ∧ bump (fun _ => 0) pre c.label + 1 = i) := by
    refine ⟨hcl, ?_⟩
    rw [hcl]
    simp only [bump]
    omega
  rw [if_pos hmid]

/-- The key of an annotated child occurs exactly once. -/
theorem key_countP (l : String) (i : Nat) (c : Node) (cs : List Node)
    (hmem : (l, i, c) ∈ indexed cs) :
    (indexed cs).countP (fun u => u.1 == l && u.2.1 == i) = 1 := by
  rw [List.countP_eq_length_filter]
  simp only [indexed] at hmem ⊢
  rw [indexedFrom_filter_key l i c cs _ hmem _ ?_ ?_]
  · rfl
  · intro u hu
    simpa using hu
  · simp

/-- Splitting a list twice around an element absent from both prefixes gives
the same split. -/
theorem append_cons_unique {α : Type} (a : α) (A : List α) :
    ∀ (B S1 S2 : List α), A ++ a :: B = S1 ++ a :: S2 → a ∉ A → a ∉ S1 →
      A = S1 ∧ B = S2 := by
  induction A with
  | nil =>
    intro B S1 S2 h hA hS
    cases S1 with
    | nil =>
      rw [List.nil_append, List.nil_append] at h
      injection h with h1 h2
      exact ⟨rfl, h2⟩
    | cons x S1 =>
      rw [List.nil_append, List.cons_append] at h
      injection h with h1 h2
      exact absurd (h1 ▸ List.mem_cons_self x S1) hS
  | cons y A ih =>
    intro B S1 S2 h hA hS
    cases S1 with
    | nil =>
      rw [List.cons_append, List.nil_append] at h
      injection h with h1 h2
      exact absurd (h1 ▸ List.mem_cons_self y A) (fun hh => hA (by rw [h1]; exact List.mem_cons_self _ _))
    | cons x S1 =>
      rw [List.cons_append, List.cons_append] at h
      injection h with h1 h2
      obtain ⟨e1, e2⟩ := ih B S1 S2 h2 (fun hh => hA (List.mem_cons_of_mem y hh))
        (fun hh => hS (List.mem_cons_of_mem x hh))
      subst h1
      rw [e1, e2]
      exact ⟨rfl, rfl⟩

/-- Replacing the node at a unique key rewrites the selection of any segment
at exactly the corresponding position: keys, order and all other selected
nodes are unchanged. -/
theorem sel_replace (s : Seg) (l : String) (i : Nat) (c : Node) (cs : List Node)
    (g : Node → Node) (hgl : (g c).label = c.label)
    (S1 S2 : List (String × Nat × Node)) (hmem : (l, i, c) ∈ indexed cs)
    (hsel : sel s cs = S1 ++ (l, i, c) :: S2) :
    sel s (mapAtKey cs l i g) = S1 ++ (l, i, g c) :: S2 := by
  have hsub : List.Sublist (sel s cs) (indexed cs) := by
    simp only [sel]
    exact List.filter_sublist _
  have hle := hsub.countP_le (fun u => u.1 == l && u.2.1 == i)
  rw [key_countP l i c cs hmem, hsel] at hle
  simp only [List.countP_append, List.countP_cons] at hle
  simp at hle
  have hS1 : ∀ u ∈ S1, ¬(u.1 = l ∧ u.2.1 = i) := by
    intro u hu hk
    have hpos : 0 < S1.countP (fun u => u.1 == l && u.2.1 == i) := by
      rw [List.countP_pos_iff]
      exact ⟨u, hu, by simp [hk.1, hk.2]⟩
    omega
  obtain ⟨pre, post, hcseq, hcl, hi0⟩ :=
    mem_indexedFrom_split l i c cs _ (by simpa [indexed] using hmem)
  subst hcseq
  rw [mapAtKey_split l i c pre post hcl (by omega) g]
  have hbk : bump (fun _ => 0) pre l + 1 = i := by
    simp only [bump]
    omega
  have hIA := no_key_pre l i pre (fun _ => 0)
    (by show 0 + countLabel l pre < i; omega)
  have hIB := no_key_post l i post
    (fun l2 => if l2 = l then bump (fun _ => 0) pre l2 + 1 else bump (fun _ => 0) pre l2)
    (by show i ≤ if l = l then bump (fun _ => 0) pre l + 1 else bump (fun _ => 0) pre l
        rw [if_pos rfl]
        omega)
  have hindexed : indexed (pre ++ c :: post) =
      indexedFrom (fun _ => 0) pre ++ (l, i, c) ::
        indexedFrom
          (fun l2 => if l2 = l then bump (fun _ => 0) pre l2 + 1 else bump (fun _ => 0) pre l2)
          post := by
    simp only [indexed, indexedFrom_append, indexedFrom_cons, hcl]
    rw [hbk]
  have hindexed2 : indexed (pre ++ g c :: post) =
      indexedFrom (fun _ => 0) pre ++ (l, i, g c) ::
        indexedFrom
          (fun l2 => if l2 = l then bump (fun _ => 0) pre l2 + 1 else bump (fun _ => 0) pre l2)
          post := by
    simp only [indexed, indexedFrom_append, indexedFrom_cons, hgl, hcl]
    rw [hbk]
  have hcounteq : ∀ l2, countLabel l2 (pre ++ g c :: post) = countLabel l2 (pre ++ c :: post) := by
    intro l2
    rw [countLabel_append, countLabel_append, countLabel_cons, countLabel_cons, hgl]
  have hPfun : (fun (t : String × Nat × Node) =>
        segMatches s t.1 t.2.1 (countLabel t.1 (pre ++ g c :: post))) =
      (fun (t : String × Nat × Node) =>
        segMatches s t.1 t.2.1 (countLabel t.1 (pre ++ c :: post))) := by
    funext t
    rw [hcounteq t.1]
  simp only [sel] at hsel ⊢
  rw [hindexed2, hPfun]
  rw [hindexed] at hsel
  cases hb : segMatches s l i (countLabel l (pre ++ c :: post)) with
  | false =>
    exfalso
    simp only [List.filter_append, List.filter_cons] at hsel
    simp only [hb] at hsel
    rw [if_neg (by simp)] at hsel
    have hmm : (l, i, c) ∈
        (indexedFrom (fun _ => 0) pre).filter
          (fun t => segMatches s t.1 t.2.1 (countLabel t.1 (pre ++ c :: post))) ++
        (indexedFrom
          (fun l2 => if l2 = l then bump (fun _ => 0) pre l2 + 1 else bump (fun _ => 0) pre l2)
          post).filter
          (fun t => segMatches s t.1 t.2.1 (countLabel t.1 (pre ++ c :: post))) := by
      rw [hsel]
      exact List.mem_append.mpr (Or.inr (List.mem_cons_self _ _))
    rcases List.mem_append.mp hmm with h | h
    · exact hIA _ (List.mem_filter.mp h).1 ⟨rfl, rfl⟩
    · exact hIB _ (List.mem_filter.mp h).1 ⟨rfl, rfl⟩
  | true =>
    simp only [List.filter_append, List.filter_cons] at hsel ⊢
    simp only [hb] at hsel ⊢
    rw [if_pos (by simp)] at hsel
    rw [if_pos (by simp)]
    obtain ⟨e1, e2⟩ := append_cons_unique (l, i, c) _ _ S1 S2 hsel
      (fun hh => hIA _ (List.mem_filter.mp hh).1 ⟨rfl, rfl⟩)
      (fun hh => hS1 _ hh ⟨rfl, rfl⟩)
    rw [e1, e2]

/-- Overwriting the value at the unique match of an expression leaves the
matcher's result unchanged apart from that node's value: the same path
matches, and it matches exactly the updated node. -/
theorem matchFrom_updateAt (e : List Seg) :
    ∀ (n : Node) (p : CPath) (m : Node) (v : String), matchFrom e n = [(p, m)] →
      matchFrom e (updateAt n p v) = [(p, Node.mk m.label (some v) m.children)] := by
  induction e with
  | nil =>
    intro n p m v h
    rw [matchFrom_nilE] at h
    injection h with h1 h2
    rw [Prod.mk.injEq] at h1
    obtain ⟨h1a, h1b⟩ := h1
    subst h1a
    subst h1b
    rfl
  | cons s rest ih =>
    intro n p m v h
    rw [matchFrom_consE] at h
    obtain ⟨S1, t, S2, hsel1, hft, hS1, hS2⟩ := flatMap_eq_singleton _ _ _ h
    obtain ⟨t1, t2, t3⟩ := t
    cases hmr : matchFrom rest t3 with
    | nil =>
      rw [hmr] at hft
      simp at hft
    | cons pm2 tail =>
      rw [hmr, List.map_cons] at hft
      injection hft with hf1 hf2
      obtain ⟨pp, mm⟩ := pm2
      rw [Prod.mk.injEq] at hf1
      obtain ⟨hf1a, hf1b⟩ := hf1
      subst hf1a
      subst hf1b
      rw [List.map_eq_nil_iff] at hf2
      subst hf2
      have hmem1 : (t1, t2, t3) ∈ indexed n.children :=
        sel_sub s n.children _
          (by rw [hsel1]; exact List.mem_append.mpr (Or.inr (List.mem_cons_self _ _)))
      have hrepl := sel_replace s t1 t2 t3 n.children (fun c => updateAt c pp v)
        (updateAt_label pp t3 v) S1 S2 hmem1 hsel1
      have hS1e : S1.flatMap (fun t =>
          (matchFrom rest t.2.2).map (fun pm => ((t.1, t.2.1) :: pm.1, pm.2))) = [] :=
        List.flatMap_eq_nil_iff.mpr hS1
      have hS2e : S2.flatMap (fun t =>
          (matchFrom rest t.2.2).map (fun pm => ((t.1, t.2.1) :: pm.1, pm.2))) = [] :=
        List.flatMap_eq_nil_iff.mpr hS2
      have hih := ih t3 pp mm v hmr
      rw [matchFrom_consE]
      simp only [updateAt, Node.children_mk]
      rw [hrepl]
      simp only [List.flatMap_append, List.flatMap_cons, hS1e, hS2e]
      rw [hih]
      simp

/-- Every annotated child carries its own label. -/
theorem indexed_label_eq (cs : List Node) (cnt : String → Nat)
    (t : String × Nat × Node) (ht : t ∈ indexedFrom cnt cs) : t.2.2.label = t.1 := by
  obtain ⟨t1, t2, t3⟩ := t
  exact (mem_indexedFrom_bounds t1 t2 t3 cs cnt ht).1

/-- With no occurrence of a label, no annotated child carries it. -/
theorem countLabel_zero_no_label (l : String) (cs : List Node)
    (h : countLabel l cs = 0) : ∀ t ∈ indexed cs, t.1 ≠ l := by
  intro t ht hl
  have hmm : t.2.2 ∈ cs := by
    have h2 : (indexed cs).map (fun t => t.2.2) = cs := indexedFrom_nodes cs (fun _ => 0)
    rw [← h2]
    exact List.mem_map.mpr ⟨t, ht, rfl⟩
  have hlab : t.2.2.label = l := by
    rw [indexed_label_eq cs _ t ht]
    exact hl
  have hpos : 0 < countLabel l cs := by
    simp only [countLabel]
    rw [List.count_pos_iff]
    exact List.mem_map.mpr ⟨t.2.2, hmm, hlab⟩
  omega

/-- An empty selection of a bare label means the label does not occur. -/
theorem sel_label_nil_count (l : String) (cs : List Node)
    (h : sel (Seg.label l) cs = []) : countLabel l cs = 0 := by
  by_contra hne
  have hpos : 0 < countLabel l cs := Nat.pos_of_ne_zero hne
  simp only [countLabel] at hpos
  rw [List.count_pos_iff] at hpos
  obtain ⟨c, hc, hlab⟩ := List.mem_map.mp hpos
  have hc2 : c ∈ (indexed cs).map (fun t => t.2.2) := by
    simp only [indexed]
    rw [indexedFrom_nodes cs (fun _ => 0)]
    exact hc
  obtain ⟨t, ht, htc⟩ := List.mem_map.mp hc2
  have ht1 : t.1 = l := by
    rw [← indexed_label_eq cs _ t ht, htc]
    exact hlab
  have hsel2 : t ∈ sel (Seg.label l) cs := by
    simp only [sel]
    refine List.mem_filter.mpr ⟨ht, ?_⟩
    simp [segMatches, ht1]
  rw [h] at hsel2
  simp at hsel2

/-- Annotated children of a list with one node appended. -/
theorem indexed_append_last (cs : List Node) (c : Node) :
    indexed (cs ++ [c]) = indexed cs ++ [(c.label, countLabel c.label cs + 1, c)] := by
  simp only [indexed, indexedFrom_append, indexedFrom_cons, indexedFrom_nil]
  have hb : bump (fun _ => 0) cs c.label + 1 = countLabel c.label cs + 1 := by
    simp only [bump]
    omega
  rw [hb]

/-- Appending a fresh node with an absent label makes the bare label select
exactly that node, with index one. -/
theorem sel_label_append (l : String) (cs : List Node) (c : Node)
    (hcl : c.label = l) (hcount : countLabel l cs = 0) :
    sel (Seg.label l) (cs ++ [c]) = [(l, 1, c)] := by
  simp only [sel, indexed_append_last, hcl]
  rw [List.filter_append, List.filter_cons]
  rw [if_pos (by simp [segMatches])]
  have hnil : (indexed cs).filter
      (fun t => segMatches (Seg.label l) t.1 t.2.1 (countLabel t.1 (cs ++ [c]))) = [] := by
    rw [List.filter_eq_nil_iff]
    intro t ht hP
    have hne := countLabel_zero_no_label l cs hcount t ht
    simp [segMatches] at hP
    exact hne hP
  rw [hnil, hcount]
  rfl

/-- Appending a fresh node at the next free index makes the indexed segment
select exactly that node. -/
theorem sel_labelIdx_append (l : String) (i : Nat) (cs : List Node) (c : Node)
    (hcl : c.label = l) (hi : i = countLabel l cs + 1) :
    sel (Seg.labelIdx l i) (cs ++ [c]) = [(l, i, c)] := by
  refine sel_labelIdx_of_mem l i c _ ?_
  rw [indexed_append_last, hcl, ← hi]
  exact List.mem_append.mpr (Or.inr (List.mem_singleton.mpr rfl))

/-- Creation never changes the label of the node it starts from. -/
theorem createSet_label (e : List Seg) :
    ∀ (n n2 : Node) (v : String), createSet n e v = .ok n2 → n2.label = n.label := by
  induction e with
  | nil =>
    intro n n2 v h
    simp only [createSet] at h
    injection h with h1
    rw [← h1]
    rfl
  | cons s rest ih =>
    intro n n2 v h
    simp only [createSet] at h
    cases hsel : sel s n.children with
    | nil =>
      simp only [hsel] at h
      cases s with
      | any => simp at h
      | labelLast l => simp at h
      | label l =>
        obtain ⟨c, hc, hn2⟩ := map_eq_ok _ _ _ h
        rw [hn2]
        rfl
      | labelIdx l i =>
        have h2 : (if i = countLabel l n.children + 1 then
            Except.map (fun c => Node.mk n.label n.value (n.children ++ [c]))
              (createSet (newNode l) rest v)
          else Except.error AugErr.setError) = Except.ok n2 := h
        by_cases hi : i = countLabel l n.children + 1
        · rw [if_pos hi] at h2
          obtain ⟨c, hc, hn2⟩ := map_eq_ok _ _ _ h2
          rw [hn2]
          rfl
        · rw [if_neg hi] at h2
          simp at h2
    | cons t ts =>
      cases ts with
      | nil =>
        simp only [hsel] at h
        obtain ⟨c, hc, hn2⟩ := map_eq_ok _ _ _ h
        rw [hn2]
        rfl
      | cons t2 ts2 =>
        simp only [hsel] at h
        simp at h

/-- A successful creation yields a tree in which the expression matches
exactly one node, and that node carries the assigned value. -/
theorem createSet_matches (e : List Seg) :
    ∀ (n n2 : Node) (v : String), createSet n e v = .ok n2 →
      ∃ p m, matchFrom e n2 = [(p, m)] ∧ m.value = some v := by
  induction e with
  | nil =>
    intro n n2 v h
    simp only [createSet] at h
    injection h with h1
    refine ⟨[], n2, rfl, ?_⟩
    rw [← h1]
    rfl
  | cons s rest ih =>
    intro n n2 v h
    simp only [createSet] at h
    cases hsel : sel s n.children with
    | nil =>
      simp only [hsel] at h
      cases s with
      | any => simp at h
      | labelLast l => simp at h
      | label l =>
        obtain ⟨c, hc, hn2⟩ := map_eq_ok _ _ _ h
        obtain ⟨p2, m2, hm2, hv2⟩ := ih _ _ _ hc
        refine ⟨(l, 1) :: p2, m2, ?_, hv2⟩
        rw [hn2]
        simp only [matchFrom_consE, Node.children_mk]
        have hcl : c.label = l := by
          have hl2 := createSet_label rest (newNode l) c v hc
          rw [hl2]
          rfl
        rw [sel_label_append l n.children c hcl (sel_label_nil_count l n.children hsel)]
        simp [hm2]
      | labelIdx l i =>
        have h2 : (if i = countLabel l n.children + 1 then
            Except.map (fun c => Node.mk n.label n.value (n.children ++ [c]))
              (createSet (newNode l) rest v)
          else Except.error AugErr.setError) = Except.ok n2 := h
        by_cases hi : i = countLabel l n.children + 1
        · rw [if_pos hi] at h2
          obtain ⟨c, hc, hn2⟩ := map_eq_ok _ _ _ h2
          obtain ⟨p2, m2, hm2, hv2⟩ := ih _ _ _ hc
          refine ⟨(l, i) :: p2, m2, ?_, hv2⟩
          rw [hn2]
          simp only [matchFrom_consE, Node.children_mk]
          have hcl : c.label = l := by
            have hl2 := createSet_label rest (newNode l) c v hc
            rw [hl2]
            rfl
          rw [sel_labelIdx_append l i n.children c hcl hi]
          simp [hm2]
        · rw [if_neg hi] at h2
          simp at h2
    | cons t ts =>
      cases ts with
      | nil =>
        simp only [hsel] at h
        obtain ⟨c, hc, hn2⟩ := map_eq_ok _ _ _ h
        obtain ⟨p2, m2, hm2, hv2⟩ := ih _ _ _ hc
        obtain ⟨t1, t2, t3⟩ := t
        refine ⟨(t1, t2) :: p2, m2, ?_, hv2⟩
        rw [hn2]
        simp only [matchFrom_consE, Node.children_mk]
        have hgl : c.label = t3.label := createSet_label rest t3 c v hc
        have hmem1 : (t1, t2, t3) ∈ indexed n.children :=
          sel_sub s n.children _ (by rw [hsel]; exact List.mem_cons_self _ _)
        have hrepl := sel_replace s t1 t2 t3 n.children (fun _ => c) hgl [] [] hmem1
          (by rw [hsel]; rfl)
        rw [hrepl]
        simp [hm2]
      | cons t2 ts2 =>
        simp only [hsel] at h
        simp at h

/-- C2: on a creatable path (segments only of the forms label and label with
an explicit index), a set that completes — creating any missing intermediate
nodes — followed immediately by get returns the written value. -/
theorem c2_set_get_roundtrip (n : Node) (e : List Seg) (v : String) (n2 : Node)
    (_hcreatable : e.all creatableSeg = true) (hset : setPath n e v = .ok n2) :
    getPath n2 e = .ok (some v) := by
  cases hm : matchFrom e n with
  | nil =>
    simp only [setPath, hm] at hset
    obtain ⟨p, m, hmm, hv⟩ := createSet_matches e n n2 v hset
    simp only [getPath, hmm, hv]
  | cons x xs =>
    cases xs with
    | nil =>
      simp only [setPath, hm] at hset
      injection hset with h1
      obtain ⟨p, m⟩ := x
      have hupd := matchFrom_updateAt e n p m v hm
      rw [← h1]
      simp only [getPath, hupd, Node.value_mk]
    | cons y ys =>
      simp only [setPath, hm] at hset
      simp at hset

/-- Witness for C2: the spec's example, set of new/leaf to x on the empty
tree followed by get. -/
theorem c2_witness :
    ([Seg.label "new", Seg.label "leaf"].all creatableSeg = true) ∧
    setPath exEmpty [Seg.label "new", Seg.label "leaf"] "x" = .ok exNewLeaf ∧
    getPath exNewLeaf [Seg.label "new", Seg.label "leaf"] = .ok (some "x") :=
  ⟨rfl, rfl, c2_set_get_roundtrip exEmpty [Seg.label "new", Seg.label "leaf"] "x"
    exNewLeaf rfl rfl⟩

/-- C3: on an open session, get raises the ambiguity error when the matcher
yields more than one node, returns the null (absent) result — not an error —
when it yields zero, and returns the matched node's value when it yields
exactly one. -/
theorem c3_get_cases (s : Session) (e : List Seg) (hopen : s.opened = true) :
    (matchFrom e s.tree = [] → Session.get s e = .ok none) ∧
    (∀ p m, matchFrom e s.tree = [(p, m)] → Session.get s e = .ok m.value) ∧
    (1 < (matchFrom e s.tree).length → Session.get s e = .error .ambiguousPath) := by
  refine ⟨?_, ?_, ?_⟩
  · intro h
    simp [Session.get, hopen, getPath, h]
  · intro p m h
    simp [Session.get, hopen, getPath, h]
  · intro h
    cases hm : matchFrom e s.tree with
    | nil =>
      rw [hm] at h
      simp at h
    | cons x xs =>
      cases xs with
      | nil =>
        rw [hm] at h
        simp at h
      | cons y ys =>
        simp [Session.get, hopen, getPath, hm]

/-- Witness for C3: the three branches of get at concrete inputs on the
two-host session. -/
theorem c3_witness :
    exSession2.opened = true ∧
    Session.get exSession2 [Seg.label "absent"] = .ok none ∧
    Session.get exSession2 [Seg.labelIdx "host" 2] = .ok (some "b") ∧
    Session.get exSession2 [Seg.label "host"] = .error .ambiguousPath := by
  refine ⟨rfl, ?_, ?_, ?_⟩
  · exact (c3_get_cases exSession2 [Seg.label "absent"] rfl).1 rfl
  · exact (c3_get_cases exSession2 [Seg.labelIdx "host" 2] rfl).2.1
      [("host", 2)] exHostB rfl
  · exact (c3_get_cases exSession2 [Seg.label "host"] rfl).2.2 (by decide)

/-- C4: the session is a two-state machine with Closed terminal: after close,
get, set, insert, remove, match, save and write all fail with the
session-closed error, and a second close is a no-op that never raises. -/
theorem c4_session_closed_terminal (s : Session) (e : List Seg) (v lbl : String)
    (b : Bool) :
    (Session.close s).opened = false ∧
    Session.get (Session.close s) e = .error .sessionClosed ∧
    Session.set (Session.close s) e v = .error .sessionClosed ∧
    Session.insert (Session.close s) e lbl b = .error .sessionClosed ∧
    Session.remove (Session.close s) e = .error .sessionClosed ∧
    Session.matchOp (Session.close s) e = .error .sessionClosed ∧
    Session.save (Session.close s) = .error .sessionClosed ∧
    Session.write (Session.close s) e = .error .sessionClosed ∧
    Session.close (Session.close s) = Session.close s :=
  ⟨rfl, rfl, rfl, rfl, rfl, rfl, rfl, rfl, rfl⟩

/-- C10: get cannot distinguish an absent node from an existing valueless
node — both give the null result — while an empty-string value is returned
as the empty string, distinct from null. -/
theorem c10_get_null_conflation (n : Node) (e : List Seg) :
    (matchFrom e n = [] → getPath n e = .ok none) ∧
    (∀ p m, matchFrom e n = [(p, m)] → m.value = none → getPath n e = .ok none) ∧
    (∀ p m, matchFrom e n = [(p, m)] → m.value = some "" →
      getPath n e = .ok (some "") ∧ getPath n e ≠ .ok none) := by
  refine ⟨?_, ?_, ?_⟩
  · intro h
    simp [getPath, h]
  · intro p m h hv
    simp [getPath, h, hv]
  · intro p m h hv
    constructor
    · simp [getPath, h, hv]
    · simp [getPath, h, hv]

/-- Witness for C10: an absent path and a valueless node both give null; an
empty-string value gives the empty string. -/
theorem c10_witness :
    getPath exMixed [Seg.label "zzz"] = .ok none ∧
    getPath exMixed [Seg.label "a"] = .ok none ∧
    (getPath exMixed [Seg.label "b"] = .ok (some "") ∧
      getPath exMixed [Seg.label "b"] ≠ .ok none) := by
  refine ⟨?_, ?_, ?_⟩
  · exact (c10_get_null_conflation exMixed [Seg.label "zzz"]).1 rfl
  · exact (c10_get_null_conflation exMixed [Seg.label "a"]).2.1
      [("a", 1)] (Node.mk "a" none []) rfl rfl
  · exact (c10_get_null_conflation exMixed [Seg.label "b"]).2.2
      [("b", 1)] (Node.mk "b" (some "") []) rfl rfl

/-- The size of a node is one plus the sizes of its children. -/
theorem Node.size_eq (n : Node) : n.size = 1 + sizeList n.children := by
  cases n with
  | mk l v cs => simp only [Node.size, Node.children_mk]

/-- The sizes of a forest add up elementwise. -/
theorem sizeList_eq_sum (cs : List Node) :
    sizeList cs = (cs.map Node.size).sum := by
  induction cs with
  | nil => rfl
  | cons c cs ih =>
    simp only [sizeList, List.map_cons, List.sum_cons, ih]

/-- The count kept by the removal fold over the final segment is the summed
size of the dropped children. -/
theorem foldr_drop_snd (P : String × Nat × Node → Bool) :
    ∀ ts : List (String × Nat × Node),
      (ts.foldr (fun t acc => if P t then (acc.1, acc.2 + t.2.2.size)
        else (t.2.2 :: acc.1, acc.2)) (([] : List Node), 0)).2 =
      ((ts.filter P).map (fun t => t.2.2.size)).sum := by
  intro ts
  induction ts with
  | nil => rfl
  | cons t ts ih =>
    rw [List.foldr_cons, List.filter_cons]
    cases hb : P t with
    | true =>
      simp only [hb, if_true, List.map_cons, List.sum_cons]
      rw [ih]
      omega
    | false =>
      simp only [hb, Bool.false_eq_true, if_false]
      rw [ih]

/-- The count kept by the removal fold over an intermediate segment sums the
recursive removal counts of the matching children. -/
theorem foldr_recurse_snd (P : String × Nat × Node → Bool) (e2 : List Seg) :
    ∀ ts : List (String × Nat × Node),
      (ts.foldr (fun t acc => if P t then
          ((removeFrom e2 t.2.2).1 :: acc.1, acc.2 + (removeFrom e2 t.2.2).2)
        else (t.2.2 :: acc.1, acc.2)) (([] : List Node), 0)).2 =
      ((ts.filter P).map (fun t => (removeFrom e2 t.2.2).2)).sum := by
  intro ts
  induction ts with
  | nil => rfl
  | cons t ts ih =>
    rw [List.foldr_cons, List.filter_cons]
    cases hb : P t with
    | true =>
      simp only [hb, if_true, List.map_cons, List.sum_cons]
      rw [ih]
      omega
    | false =>
      simp only [hb, Bool.false_eq_true, if_false]
      rw [ih]

/-- Summing subtree sizes over the matcher's flatMap sums per selected
child. -/
theorem sum_flatMap_size (rest : List Seg) (ts : List (String × Nat × Node)) :
    ((ts.flatMap (fun t => (matchFrom rest t.2.2).map
        (fun pm => ((t.1, t.2.1) :: pm.1, pm.2)))).map (fun pm => pm.2.size)).sum =
      (ts.map (fun t => ((matchFrom rest t.2.2).map (fun pm => pm.2.size)).sum)).sum := by
  induction ts with
  | nil => rfl
  | cons t ts ih =>
    rw [List.flatMap_cons, List.map_append, List.sum_append, ih, List.map_cons,
      List.sum_cons, List.map_map]
    rfl

/-- Unfolding of the removal count at the final segment. -/
theorem removeFrom_last_snd (s : Seg) (n : Node) :
    (removeFrom [s] n).2 = ((indexed n.children).foldr (fun t acc =>
      if segMatches s t.1 t.2.1 (countLabel t.1 n.children) then (acc.1, acc.2 + t.2.2.size)
      else (t.2.2 :: acc.1, acc.2)) (([] : List Node), 0)).2 := rfl

/-- Unfolding of the removal count at an intermediate segment. -/
theorem removeFrom_cons2_snd (s s2 : Seg) (rest2 : List Seg) (n : Node) :
    (removeFrom (s :: s2 :: rest2) n).2 = ((indexed n.children).foldr (fun t acc =>
      if segMatches s t.1 t.2.1 (countLabel t.1 n.children) then
        ((removeFrom (s2 :: rest2) t.2.2).1 :: acc.1, acc.2 + (removeFrom (s2 :: rest2) t.2.2).2)
      else (t.2.2 :: acc.1, acc.2)) (([] : List Node), 0)).2 := rfl

/-- The removal count equals the summed sizes of all matched subtrees. -/
theorem removeFrom_count (rest : List Seg) :
    ∀ (s : Seg) (n : Node), (removeFrom (s :: rest) n).2 =
      ((matchFrom (s :: rest) n).map (fun pm => pm.2.size)).sum := by
  induction rest with
  | nil =>
    intro s n
    rw [removeFrom_last_snd, matchFrom_consE]
    rw [foldr_drop_snd, sum_flatMap_size]
    simp only [sel]
    refine congrArg List.sum (List.map_congr_left ?_)
    intro t _
    simp [matchFrom_nilE]
  | cons s2 rest2 ih =>
    intro s n
    rw [removeFrom_cons2_snd, matchFrom_consE]
    rw [foldr_recurse_snd, sum_flatMap_size]
    simp only [sel]
    refine congrArg List.sum (List.map_congr_left ?_)
    intro t _
    rw [ih s2 t.2.2]

/-- C5: on an open session, remove removes every node matched by a nonempty
expression together with its entire subtree and never raises; the returned
count sums, over all matched nodes, one plus the number of descendants of
each, and it is zero exactly when the match was empty. -/
theorem c5_remove_count (s : Session) (e : List Seg) (hopen : s.opened = true)
    (hne : e ≠ []) :
    Session.remove s e = .ok ((removeFrom e s.tree).2,
      Session.mk (removeFrom e s.tree).1 s.files s.opened) ∧
    (removeFrom e s.tree).2 =
      ((matchFrom e s.tree).map (fun pm => 1 + sizeList pm.2.children)).sum ∧
    ((removeFrom e s.tree).2 = 0 ↔ matchFrom e s.tree = []) := by
  have hcount : (removeFrom e s.tree).2 =
      ((matchFrom e s.tree).map (fun pm => pm.2.size)).sum := by
    cases e with
    | nil => exact absurd rfl hne
    | cons s1 rest => exact removeFrom_count rest s1 s.tree
  refine ⟨?_, ?_, ?_⟩
  · simp [Session.remove, hopen]
  · rw [hcount]
    refine congrArg List.sum (List.map_congr_left ?_)
    intro pm _
    rw [Node.size_eq]
  · rw [hcount]
    constructor
    · intro h0
      cases hmm : matchFrom e s.tree with
      | nil => rfl
      | cons x xs =>
        rw [hmm, List.map_cons, List.sum_cons] at h0
        have hp := Node.size_pos x.2
        omega
    · intro h
      rw [h]
      rfl

/-- Witness for C5: removing the two hosts of the example session removes
two nodes; the count matches the sum over matches and the zero-iff. -/
theorem c5_witness :
    exSession2.opened = true ∧ ([Seg.label "host"] : List Seg) ≠ [] ∧
    (Session.remove exSession2 [Seg.label "host"] =
      .ok ((removeFrom [Seg.label "host"] exSession2.tree).2,
        Session.mk (removeFrom [Seg.label "host"] exSession2.tree).1
          exSession2.files exSession2.opened) ∧
    (removeFrom [Seg.label "host"] exSession2.tree).2 =
      ((matchFrom [Seg.label "host"] exSession2.tree).map
        (fun pm => 1 + sizeList pm.2.children)).sum ∧
    ((removeFrom [Seg.label "host"] exSession2.tree).2 = 0 ↔
      matchFrom [Seg.label "host"] exSession2.tree = [])) :=
  ⟨rfl, by decide, c5_remove_count exSession2 [Seg.label "host"] rfl (by decide)⟩

/-- C7: insert fails with the ambiguity error unless the path matches exactly
one existing node; with a unique match it fails with the label error whenever
the label contains a slash, contains a star, or ends with a bracketed index
suffix; on such failures no new tree is produced, so the tree is unchanged. -/
theorem c7_insert_errors (n : Node) (e : List Seg) (lbl : String) (b : Bool) :
    ((matchFrom e n).length ≠ 1 → insertPath n e lbl b = .error .ambiguousPath) ∧
    (∀ p m, matchFrom e n = [(p, m)] →
      (lbl.data.contains '/' = true ∨ lbl.data.contains '*' = true ∨
        endsWithIndex lbl = true) →
      insertPath n e lbl b = .error .invalidLabel) ∧
    ((validLabel lbl = false ∨ (matchFrom e n).length ≠ 1) →
      ∀ n2, insertPath n e lbl b ≠ .ok n2) := by
  refine ⟨?_, ?_, ?_⟩
  · intro hlen
    cases hm : matchFrom e n with
    | nil => simp [insertPath, hm]
    | cons x xs =>
      cases xs with
      | nil =>
        rw [hm] at hlen
        simp at hlen
      | cons y ys => simp [insertPath, hm]
  · intro p m hm hbad
    have hv : validLabel lbl = false := by
      simp only [validLabel]
      rcases hbad with h | h | h <;> rw [h] <;> simp
    simp [insertPath, hm, hv]
  · intro hbad n2
    rcases hbad with h | h
    · cases hm : matchFrom e n with
      | nil => simp [insertPath, hm]
      | cons x xs =>
        cases xs with
        | nil => simp [insertPath, hm, h]
        | cons y ys => simp [insertPath, hm]
    · cases hm : matchFrom e n with
      | nil => simp [insertPath, hm]
      | cons x xs =>
        cases xs with
        | nil =>
          rw [hm] at h
          simp at h
        | cons y ys => simp [insertPath, hm]

/-- Witness for C7: the ambiguity error on the two-host path, the label
error for a slashed label on the unique path, and the absence of any
successful result. -/
theorem c7_witness :
    ((matchFrom [Seg.label "host"] exRoot2).length ≠ 1 ∧
      insertPath exRoot2 [Seg.label "host"] "x" true = .error .ambiguousPath) ∧
    (matchFrom [Seg.labelIdx "host" 1] exRoot2 = [([("host", 1)], exHostA)] ∧
      "ho/st".data.contains '/' = true ∧
      insertPath exRoot2 [Seg.labelIdx "host" 1] "ho/st" true = .error .invalidLabel) ∧
    (∀ n2, insertPath exRoot2 [Seg.label "host"] "x" true ≠ .ok n2) := by
  refine ⟨⟨by decide, ?_⟩, ⟨rfl, rfl, ?_⟩, ?_⟩
  · exact (c7_insert_errors exRoot2 [Seg.label "host"] "x" true).1 (by decide)
  · exact (c7_insert_errors exRoot2 [Seg.labelIdx "host" 1] "ho/st" true).2.1
      [("host", 1)] exHostA rfl (Or.inl rfl)
  · exact (c7_insert_errors exRoot2 [Seg.label "host"] "x" true).2.2 (Or.inr (by decide))

/-- An expression with an unmatched proper segment list matches nothing when
extended. -/
theorem matchFrom_append_nil (a : List Seg) :
    ∀ (b : List Seg) (n : Node), matchFrom a n = [] → matchFrom (a ++ b) n = [] := by
  induction a with
  | nil =>
    intro b n h
    rw [matchFrom_nilE] at h
    simp at h
  | cons s a2 ih =>
    intro b n h
    rw [matchFrom_consE] at h
    rw [List.cons_append, matchFrom_consE]
    rw [List.flatMap_eq_nil_iff] at h ⊢
    intro t ht
    have h2 := h t ht
    rw [List.map_eq_nil_iff] at h2 ⊢
    exact ih b t.2.2 h2

/-- An Except map yielding an error comes from the same error. -/
theorem map_eq_error {α β : Type} (f : α → β) (x : Except AugErr α) (err : AugErr)
    (h : x.map f = .error err) : x = .error err := by
  cases x with
  | ok a => simp [Except.map] at h
  | error e2 =>
    have h2 : (Except.error e2 : Except AugErr β) = .error err := h
    injection h2 with h3
    rw [h3]

/-- Creation starting below a fresh childless node only ever succeeds when
every remaining segment is creatable. -/
theorem createSet_fresh_no_wild (e : List Seg) :
    ∀ (n : Node) (v : String) (n2 : Node), n.children = [] → createSet n e v = .ok n2 →
      ∀ e1 s e2, e = e1 ++ s :: e2 → creatableSeg s = true := by
  induction e with
  | nil =>
    intro n v n2 hch h e1 s e2 he
    exact absurd he (by cases e1 <;> simp)
  | cons s0 rest ih =>
    intro n v n2 hch h e1 s e2 he
    simp only [createSet] at h
    have hsel : sel s0 n.children = [] := by
      rw [hch]
      rfl
    simp only [hsel] at h
    cases e1 with
    | nil =>
      injection he with he1 he2
      subst he1
      cases s0 with
      | any => simp at h
      | labelLast l => simp at h
      | label l => rfl
      | labelIdx l i => rfl
    | cons x e1b =>
      injection he with he1 he2
      cases s0 with
      | any => simp at h
      | labelLast l => simp at h
      | label l =>
        obtain ⟨c, hc, hn2⟩ := map_eq_ok _ _ _ h
        exact ih (newNode l) v c rfl hc e1b s e2 he2
      | labelIdx l i =>
        have h2 : (if i = countLabel l n.children + 1 then
            Except.map (fun c => Node.mk n.label n.value (n.children ++ [c]))
              (createSet (newNode l) rest v)
          else Except.error AugErr.setError) = Except.ok n2 := h
        by_cases hi : i = countLabel l n.children + 1
        · rw [if_pos hi] at h2
          obtain ⟨c, hc, hn2⟩ := map_eq_ok _ _ _ h2
          exact ih (newNode l) v c rfl hc e1b s e2 he2
        · rw [if_neg hi] at h2
          simp at h2

/-- A successful creation implies that every non-creatable segment of the
expression already had matches up to and including its own position. -/
theorem createSet_ok_no_wild (e : List Seg) :
    ∀ (n : Node) (v : String) (n2 : Node), createSet n e v = .ok n2 →
      ∀ e1 s e2, e = e1 ++ s :: e2 → creatableSeg s = false →
        matchFrom (e1 ++ [s]) n ≠ [] := by
  induction e with
  | nil =>
    intro n v n2 h e1 s e2 he hwild
    exact absurd he (by cases e1 <;> simp)
  | cons s0 rest ih =>
    intro n v n2 h e1 s e2 he hwild
    simp only [createSet] at h
    cases hsel : sel s0 n.children with
    | nil =>
      simp only [hsel] at h
      cases e1 with
      | nil =>
        injection he with he1 he2
        subst he1
        cases s0 with
        | any => simp at h
        | labelLast l => simp at h
        | label l => simp [creatableSeg] at hwild
        | labelIdx l i => simp [creatableSeg] at hwild
      | cons x e1b =>
        injection he with he1 he2
        cases s0 with
        | any => simp at h
        | labelLast l => simp at h
        | label l =>
          obtain ⟨c, hc, hn2⟩ := map_eq_ok _ _ _ h
          have htrue := createSet_fresh_no_wild rest (newNode l) v c rfl hc e1b s e2 he2
          rw [htrue] at hwild
          simp at hwild
        | labelIdx l i =>
          have h2 : (if i = countLabel l n.children + 1 then
              Except.map (fun c => Node.mk n.label n.value (n.children ++ [c]))
                (createSet (newNode l) rest v)
            else Except.error AugErr.setError) = Except.ok n2 := h
          by_cases hi : i = countLabel l n.children + 1
          · rw [if_pos hi] at h2
            obtain ⟨c, hc, hn2⟩ := map_eq_ok _ _ _ h2
            have htrue := createSet_fresh_no_wild rest (newNode l) v c rfl hc e1b s e2 he2
            rw [htrue] at hwild
            simp at hwild
          · rw [if_neg hi] at h2
            simp at h2
    | cons t ts =>
      cases ts with
      | nil =>
        simp only [hsel] at h
        obtain ⟨c, hc, hn2⟩ := map_eq_ok _ _ _ h
        cases e1 with
        | nil =>
          injection he with he1 he2
          subst he1
          intro hcontra
          rw [List.nil_append, matchFrom_consE, List.flatMap_eq_nil_iff] at hcontra
          have h3 := hcontra t (by rw [hsel]; exact List.mem_cons_self _ _)
          rw [List.map_eq_nil_iff, matchFrom_nilE] at h3
          simp at h3
        | cons x e1b =>
          injection he with he1 he2
          subst he1
          have hne := ih t.2.2 v c hc e1b s e2 he2 hwild
          intro hcontra
          rw [List.cons_append, matchFrom_consE, List.flatMap_eq_nil_iff] at hcontra
          have h3 := hcontra t (by rw [hsel]; exact List.mem_cons_self _ _)
          rw [List.map_eq_nil_iff] at h3
          exact hne h3
      | cons t2 ts2 =>
        simp only [hsel] at h
        simp at h

/-- Creation only ever fails with the creation error or the ambiguity
error. -/
theorem createSet_error_kind (e : List Seg) :
    ∀ (n : Node) (v : String) (err : AugErr), createSet n e v = .error err →
      err = .setError ∨ err = .ambiguousPath := by
  induction e with
  | nil =>
    intro n v err h
    simp [createSet] at h
  | cons s0 rest ih =>
    intro n v err h
    simp only [createSet] at h
    cases hsel : sel s0 n.children with
    | nil =>
      simp only [hsel] at h
      cases s0 with
      | any =>
        injection h with h1
        exact Or.inl h1.symm
      | labelLast l =>
        injection h with h1
        exact Or.inl h1.symm
      | label l =>
        exact ih (newNode l) v err (map_eq_error _ _ _ h)
      | labelIdx l i =>
        have h2 : (if i = countLabel l n.children + 1 then
            Except.map (fun c => Node.mk n.label n.value (n.children ++ [c]))
              (createSet (newNode l) rest v)
          else Except.error AugErr.setError) = Except.error err := h
        by_cases hi : i = countLabel l n.children + 1
        · rw [if_pos hi] at h2
          exact ih (newNode l) v err (map_eq_error _ _ _ h2)
        · rw [if_neg hi] at h2
          injection h2 with h3
          exact Or.inl h3.symm
    | cons t ts =>
      cases ts with
      | nil =>
        simp only [hsel] at h
        exact ih t.2.2 v err (map_eq_error _ _ _ h)
      | cons t2 ts2 =>
        simp only [hsel] at h
        injection h with h1
        exact Or.inr h1.symm

/-- C8 counterexample: on a root with two childless hosts, set on host
followed by the wildcard — a path whose wildcard segment currently matches
zero nodes — fails with the ambiguity error of the duplicated intermediate
segment, not with the creation error the claim requires. -/
theorem c8_counterexample :
    matchFrom ([Seg.label "host"] ++ [Seg.any]) exRoot2 = [] ∧
    setPath exRoot2 ([Seg.label "host"] ++ Seg.any :: []) "v" = .error .ambiguousPath ∧
    setPath exRoot2 ([Seg.label "host"] ++ Seg.any :: []) "v" ≠ .error .setError := by
  refine ⟨rfl, rfl, ?_⟩
  intro h
  have h2 : (Except.error AugErr.ambiguousPath : Except AugErr Node) =
      .error .setError := h
  injection h2 with h3
  exact AugErr.noConfusion h3

/-- C8 amended: set on a path containing a wildcard or last() segment that
currently matches zero nodes always fails without creating nodes — with the
creation error, except that an ambiguous intermediate segment reports the
ambiguity error instead. -/
theorem c8_set_wildcard_fails (n : Node) (e1 e2 : List Seg) (s : Seg) (v : String)
    (hwild : creatableSeg s = false)
    (hzero : matchFrom (e1 ++ [s]) n = []) :
    setPath n (e1 ++ s :: e2) v = .error .setError ∨
    setPath n (e1 ++ s :: e2) v = .error .ambiguousPath := by
  have hsplit : e1 ++ s :: e2 = (e1 ++ [s]) ++ e2 := by simp
  have hfull : matchFrom (e1 ++ s :: e2) n = [] := by
    rw [hsplit]
    exact matchFrom_append_nil (e1 ++ [s]) e2 n hzero
  cases hc : createSet n (e1 ++ s :: e2) v with
  | ok n2 =>
    exact absurd hzero (createSet_ok_no_wild (e1 ++ s :: e2) n v n2 hc e1 s e2 rfl hwild)
  | error err =>
    have hkind := createSet_error_kind (e1 ++ s :: e2) n v err hc
    simp only [setPath, hfull, hc]
    rcases hkind with h | h
    · exact Or.inl (by rw [h])
    · exact Or.inr (by rw [h])

/-- Witness for C8 amended: on a root with a single childless host, set on
host followed by the wildcard fails with the creation error. -/
theorem c8_witness :
    creatableSeg Seg.any = false ∧
    matchFrom ([Seg.label "host"] ++ [Seg.any]) exRoot1 = [] ∧
    (setPath exRoot1 ([Seg.label "host"] ++ Seg.any :: []) "v" = .error .setError ∨
      setPath exRoot1 ([Seg.label "host"] ++ Seg.any :: []) "v" = .error .ambiguousPath) :=
  ⟨rfl, rfl, c8_set_wildcard_fails exRoot1 [Seg.label "host"] [] Seg.any "v" rfl rfl⟩

/-- The engine save pass attempts every pending file: the recorded failures
are exactly the unwritable pending files, in order, and every file is kept. -/
theorem saveEngine_spec (fs : List SFile) :
    (saveEngine fs).2 = (fs.filter (fun f => f.dirty && !f.writable)).map SFile.name ∧
    (saveEngine fs).1.map SFile.name = fs.map SFile.name := by
  induction fs with
  | nil => exact ⟨rfl, rfl⟩
  | cons f fs ih =>
    obtain ⟨ih1, ih2⟩ := ih
    cases hd : f.dirty with
    | false =>
      constructor
      · simp [saveEngine, hd, List.filter_cons, ih1]
      · simp [saveEngine, hd, ih2]
    | true =>
      cases hw : f.writable with
      | true =>
        constructor
        · simp [saveEngine, hd, hw, List.filter_cons, ih1]
        · simp [saveEngine, hd, hw, ih2]
      | false =>
        constructor
        · simp [saveEngine, hd, hw, List.filter_cons, ih1]
        · simp [saveEngine, hd, hw, ih2]

/-- C9 counterexample: two open sessions pending the same two files, failing
on different files, report the identical single engine-wide error value, so
the caller cannot determine from save's error which source file failed. -/
theorem c9_counterexample :
    (saveEngine [SFile.mk "a" true false, SFile.mk "b" true true]).2 = ["a"] ∧
    (saveEngine [SFile.mk "a" true true, SFile.mk "b" true false]).2 = ["b"] ∧
    Session.save (Session.mk exRoot2
      [SFile.mk "a" true false, SFile.mk "b" true true] true) = .error .saveError ∧
    Session.save (Session.mk exRoot2
      [SFile.mk "a" true true, SFile.mk "b" true false] true) = .error .saveError :=
  ⟨rfl, rfl, rfl, rfl⟩

/-- C9 amended: the engine save pass attempts every pending file — a failure
on one file does not prevent attempting the rest, and every failing pending
file is recorded internally — but the binding reports any failure as the one
engine-wide save error, which carries no identification of the failing
file. -/
theorem c9_save_engine_wide (s : Session) (hopen : s.opened = true) :
    (saveEngine s.files).2 =
      (s.files.filter (fun f => f.dirty && !f.writable)).map SFile.name ∧
    (saveEngine s.files).1.map SFile.name = s.files.map SFile.name ∧
    ((saveEngine s.files).2 ≠ [] → Session.save s = .error .saveError) := by
  obtain ⟨h1, h2⟩ := saveEngine_spec s.files
  refine ⟨h1, h2, ?_⟩
  intro hne
  cases hr : (saveEngine s.files).2 with
  | nil => exact absurd hr hne
  | cons x xs => simp [Session.save, hopen, hr]

/-- Witness for C9 amended: a session pending an unwritable file a and a
writable file b records exactly the failure of a, still saves b, and the
binding reports the bare engine-wide save error. -/
theorem c9_witness :
    (Session.mk exRoot2 [SFile.mk "a" true false, SFile.mk "b" true true] true).opened
      = true ∧
    (saveEngine (Session.mk exRoot2
        [SFile.mk "a" true false, SFile.mk "b" true true] true).files).2 =
      ((Session.mk exRoot2 [SFile.mk "a" true false, SFile.mk "b" true true]
        true).files.filter (fun f => f.dirty && !f.writable)).map SFile.name ∧
    Session.save (Session.mk exRoot2
      [SFile.mk "a" true false, SFile.mk "b" true true] true) = .error .saveError :=
  ⟨rfl,
    (c9_save_engine_wide (Session.mk exRoot2
      [SFile.mk "a" true false, SFile.mk "b" true true] true) rfl).1,
    (c9_save_engine_wide (Session.mk exRoot2
      [SFile.mk "a" true false, SFile.mk "b" true true] true) rfl).2.2 (by decide)⟩

/-- Pointwise equal functions give equal flatMaps. -/
theorem flatMap_congr2 {α β : Type} (ts : List α) (f g : α → List β)
    (h : ∀ t ∈ ts, f t = g t) : ts.flatMap f = ts.flatMap g := by
  induction ts with
  | nil => rfl
  | cons t ts ih =>
    rw [List.flatMap_cons, List.flatMap_cons, h t (List.mem_cons_self t ts),
      ih (fun u hu => h u (List.mem_cons_of_mem t hu))]

/-- A flatMap of singletons is a map. -/
theorem flatMap_single {α β : Type} (ts : List α) (g : α → β) :
    ts.flatMap (fun t => [g t]) = ts.map g := by
  induction ts with
  | nil => rfl
  | cons t ts ih =>
    rw [List.flatMap_cons, List.map_cons, ih]
    rfl

/-- Inserting a sibling never changes the label of the walked node. -/
theorem insertAtC_label (p : CPath) (n : Node) (lbl : String) (b : Bool) :
    (insertAtC n p lbl b).label = n.label := by
  cases p with
  | nil => rfl
  | cons q rest =>
    cases rest with
    | nil => rfl
    | cons q2 rest2 => rfl

theorem insertAtC_single (n : Node) (q : String × Nat) (lbl : String) (b : Bool) :
    insertAtC n [q] lbl b =
      Node.mk n.label n.value (insertSib n.children q.1 q.2 lbl b) := rfl

theorem insertAtC_cons (n : Node) (q : String × Nat) (rest : CPath) (lbl : String)
    (b : Bool) (hne : rest ≠ []) :
    insertAtC n (q :: rest) lbl b = Node.mk n.label n.value
      (mapAtKey n.children q.1 q.2 (fun c => insertAtC c rest lbl b)) := by
  cases rest with
  | nil => exact absurd rfl hne
  | cons q2 rest2 => rfl

theorem toExpr_append (a b2 : CPath) : toExpr (a ++ b2) = toExpr a ++ toExpr b2 :=
  List.map_append _ a b2

/-- A unique match at a path split around its final component determines a
unique parent whose selection at the final key is exactly the matched
node. -/
theorem parent_split (p2 : CPath) :
    ∀ (n : Node) (l : String) (i : Nat) (m : Node),
      matchFrom (toExpr (p2 ++ [(l, i)])) n = [(p2 ++ [(l, i)], m)] →
      ∃ q, matchFrom (toExpr p2) n = [(p2, q)] ∧
        sel (Seg.labelIdx l i) q.children = [(l, i, m)] := by
  induction p2 with
  | nil =>
    intro n l i m h
    simp only [List.nil_append, toExpr_cons, toExpr_nil, matchFrom_consE] at h
    obtain ⟨S1, t, S2, hsel1, hft, hS1, hS2⟩ := flatMap_eq_singleton _ _ _ h
    obtain ⟨t1, t2, t3⟩ := t
    rw [matchFrom_nilE, List.map_cons, List.map_nil] at hft
    injection hft with hf1 _
    rw [Prod.mk.injEq] at hf1
    obtain ⟨hf1a, hf1b⟩ := hf1
    simp only at hf1a hf1b
    injection hf1a with hkey _
    rw [Prod.mk.injEq] at hkey
    obtain ⟨hk1, hk2⟩ := hkey
    subst hk1
    subst hk2
    subst hf1b
    have hS1nil : S1 = [] := by
      cases S1 with
      | nil => rfl
      | cons a as =>
        have ha := hS1 a (List.mem_cons_self a as)
        rw [matchFrom_nilE, List.map_cons] at ha
        exact absurd ha (by simp)
    have hS2nil : S2 = [] := by
      cases S2 with
      | nil => rfl
      | cons a as =>
        have ha := hS2 a (List.mem_cons_self a as)
        rw [matchFrom_nilE, List.map_cons] at ha
        exact absurd ha (by simp)
    rw [hS1nil, hS2nil] at hsel1
    refine ⟨n, by rw [toExpr_nil, matchFrom_nilE], ?_⟩
    simpa using hsel1
  | cons q0 p2b ih =>
    intro n l i m h
    simp only [List.cons_append, toExpr_cons, matchFrom_consE] at h
    obtain ⟨S1, t, S2, hsel1, hft, hS1, hS2⟩ := flatMap_eq_singleton _ _ _ h
    obtain ⟨t1, t2, t3⟩ := t
    cases hmr : matchFrom (toExpr (p2b ++ [(l, i)])) t3 with
    | nil =>
      rw [hmr] at hft
      simp at hft
    | cons pm2 tail =>
      rw [hmr, List.map_cons] at hft
      injection hft with hf1 hf2
      obtain ⟨pp, mm⟩ := pm2
      rw [Prod.mk.injEq] at hf1
      obtain ⟨hf1a, hf1b⟩ := hf1
      simp only at hf1a hf1b
      injection hf1a with hkey hpp
      rw [List.map_eq_nil_iff] at hf2
      subst hf2
      subst hpp
      rw [hf1b] at hmr
      obtain ⟨q, hq, hselq⟩ := ih t3 l i m hmr
      subst hkey
      refine ⟨q, ?_, hselq⟩
      rw [toExpr_cons, matchFrom_consE]
      have hmemt : (t1, t2, t3) ∈ indexed n.children :=
        sel_sub _ n.children _
          (by rw [hsel1]; exact List.mem_append.mpr (Or.inr (List.mem_cons_self _ _)))
      have hselt : sel (Seg.labelIdx (t1, t2).1 (t1, t2).2) n.children = [(t1, t2, t3)] :=
        sel_labelIdx_of_mem t1 t2 t3 n.children hmemt
      rw [hselt]
      simp [hq]

/-- Inserting a sibling at a unique key places the fresh valueless node
immediately before or after the keyed child, keeping every other sibling in
order. -/
theorem insertSib_split (cs : List Node) (l : String) (i : Nat) (m : Node)
    (lbl : String) (b : Bool) (hmem : (l, i, m) ∈ indexed cs) :
    ∃ pre post, cs = pre ++ m :: post ∧ m.label = l ∧ i = countLabel l pre + 1 ∧
      insertSib cs l i lbl b =
        pre ++ (if b then [newNode lbl, m] else [m, newNode lbl]) ++ post := by
  obtain ⟨pre, post, hcs, hcl, hi0⟩ :=
    mem_indexedFrom_split l i m cs _ (by simpa [indexed] using hmem)
  subst hcs
  refine ⟨pre, post, rfl, hcl, by omega, ?_⟩
  have hbk : bump (fun _ => 0) pre l + 1 = i := by
    simp only [bump]
    omega
  have hIA := no_key_pre l i pre (fun _ => 0) (by show 0 + countLabel l pre < i; omega)
  have hIB := no_key_post l i post
    (fun l2 => if l2 = l then bump (fun _ => 0) pre l2 + 1 else bump (fun _ => 0) pre l2)
    (by show i ≤ if l = l then bump (fun _ => 0) pre l + 1 else bump (fun _ => 0) pre l
        rw [if_pos rfl]
        omega)
  simp only [insertSib, indexed, indexedFrom_append, indexedFrom_cons, hcl]
  rw [hbk]
  rw [List.flatMap_append, List.flatMap_cons]
  have hA : (indexedFrom (fun _ => 0) pre).flatMap (fun t =>
      if t.1 = l ∧ t.2.1 = i then
        if b then [newNode lbl, t.2.2] else [t.2.2, newNode lbl]
      else [t.2.2]) = pre := by
    have step1 := flatMap_congr2 (indexedFrom (fun _ => 0) pre)
      (fun t =>
        if t.1 = l ∧ t.2.1 = i then
          if b then [newNode lbl, t.2.2] else [t.2.2, newNode lbl]
        else [t.2.2])
      (fun t => [t.2.2])
      (fun t ht => by simp only [if_neg (hIA t ht)])
    rw [step1, flatMap_single, indexedFrom_nodes]
  have hB : (indexedFrom
      (fun l2 => if l2 = l then bump (fun _ => 0) pre l2 + 1 else bump (fun _ => 0) pre l2)
      post).flatMap (fun t =>
      if t.1 = l ∧ t.2.1 = i then
        if b then [newNode lbl, t.2.2] else [t.2.2, newNode lbl]
      else [t.2.2]) = post := by
    have step1 := flatMap_congr2 (indexedFrom
        (fun l2 => if l2 = l then bump (fun _ => 0) pre l2 + 1 else bump (fun _ => 0) pre l2)
        post)
      (fun t =>
        if t.1 = l ∧ t.2.1 = i then
          if b then [newNode lbl, t.2.2] else [t.2.2, newNode lbl]
        else [t.2.2])
      (fun t => [t.2.2])
      (fun t ht => by simp only [if_neg (hIB t ht)])
    rw [step1, flatMap_single, indexedFrom_nodes]
  rw [hA, hB]
  have hMid : (if (l, i, m).1 = l ∧ (l, i, m).2.1 = i then
      if b then [newNode lbl, (l, i, m).2.2] else [(l, i, m).2.2, newNode lbl]
    else [(l, i, m).2.2]) = (if b then [newNode lbl, m] else [m, newNode lbl]) := by
    simp
  rw [hMid, List.append_assoc]

/-- Walking a concrete path to insert a sibling leaves the matcher's view of
the walked path intact, with the parent's children replaced by the inserted
list. -/
theorem insertAtC_walk (p2 : CPath) :
    ∀ (n q : Node) (l : String) (i : Nat) (lbl : String) (b : Bool),
      matchFrom (toExpr p2) n = [(p2, q)] →
      matchFrom (toExpr p2) (insertAtC n (p2 ++ [(l, i)]) lbl b) =
        [(p2, Node.mk q.label q.value (insertSib q.children l i lbl b))] := by
  induction p2 with
  | nil =>
    intro n q l i lbl b h
    rw [toExpr_nil, matchFrom_nilE] at h
    injection h with h1 _
    rw [Prod.mk.injEq] at h1
    obtain ⟨_, h1b⟩ := h1
    subst h1b
    rw [List.nil_append, insertAtC_single]
    rfl
  | cons q0 p2b ih =>
    intro n q l i lbl b h
    rw [toExpr_cons, matchFrom_consE] at h
    obtain ⟨S1, t, S2, hsel1, hft, hS1, hS2⟩ := flatMap_eq_singleton _ _ _ h
    obtain ⟨t1, t2, t3⟩ := t
    cases hmr : matchFrom (toExpr p2b) t3 with
    | nil =>
      rw [hmr] at hft
      simp at hft
    | cons pm2 tail =>
      rw [hmr, List.map_cons] at hft
      injection hft with hf1 hf2
      obtain ⟨pp, mm⟩ := pm2
      rw [Prod.mk.injEq] at hf1
      obtain ⟨hf1a, hf1b⟩ := hf1
      simp only at hf1a hf1b
      injection hf1a with hkey hpp
      rw [List.map_eq_nil_iff] at hf2
      subst hf2
      rw [hpp, hf1b] at hmr
      subst hkey
      have hne : p2b ++ [(l, i)] ≠ [] := by simp
      rw [List.cons_append, insertAtC_cons n (t1, t2) (p2b ++ [(l, i)]) lbl b hne]
      rw [toExpr_cons, matchFrom_consE, Node.children_mk]
      have hmemt : (t1, t2, t3) ∈ indexed n.children :=
        sel_sub _ n.children _
          (by rw [hsel1]; exact List.mem_append.mpr (Or.inr (List.mem_cons_self _ _)))
      have hrepl := sel_replace (Seg.labelIdx (t1, t2).1 (t1, t2).2) t1 t2 t3 n.children
        (fun c => insertAtC c (p2b ++ [(l, i)]) lbl b)
        (insertAtC_label (p2b ++ [(l, i)]) t3 lbl b) S1 S2 hmemt hsel1
      rw [hrepl]
      have hS1e : S1.flatMap (fun t =>
          (matchFrom (toExpr p2b) t.2.2).map (fun pm => ((t.1, t.2.1) :: pm.1, pm.2))) = [] :=
        List.flatMap_eq_nil_iff.mpr hS1
      have hS2e : S2.flatMap (fun t =>
          (matchFrom (toExpr p2b) t.2.2).map (fun pm => ((t.1, t.2.1) :: pm.1, pm.2))) = [] :=
        List.flatMap_eq_nil_iff.mpr hS2
      have hih := ih t3 q l i lbl b hmr
      simp only [List.flatMap_append, List.flatMap_cons, hS1e, hS2e]
      rw [hih]
      simp

/-- C6: on an open session whose path matches exactly one node, insert
creates a fresh valueless sibling with the given label, placed immediately
before the matched node when the flag is true and immediately after it when
the flag is false, keeping every other sibling in order (so same-labelled
siblings are renumbered accordingly). -/
theorem c6_insert_position (s0 : Session) (e : List Seg) (p2 : CPath)
    (l : String) (i : Nat) (m : Node) (lbl : String) (b : Bool)
    (hopen : s0.opened = true)
    (hm : matchFrom e s0.tree = [(p2 ++ [(l, i)], m)])
    (hlbl : validLabel lbl = true) :
    Session.insert s0 e lbl b = .ok (Session.mk
      (insertAtC s0.tree (p2 ++ [(l, i)]) lbl b) s0.files s0.opened) ∧
    ∃ q pre post, matchFrom (toExpr p2) s0.tree = [(p2, q)] ∧
      q.children = pre ++ m :: post ∧ m.label = l ∧ i = countLabel l pre + 1 ∧
      newNode lbl = Node.mk lbl none [] ∧
      matchFrom (toExpr p2) (insertAtC s0.tree (p2 ++ [(l, i)]) lbl b) =
        [(p2, Node.mk q.label q.value
          (pre ++ (if b then [newNode lbl, m] else [m, newNode lbl]) ++ post))] := by
  constructor
  · simp [Session.insert, hopen, insertPath, hm, hlbl, Except.map]
  · have hmem0 : (p2 ++ [(l, i)], m) ∈ matchFrom e s0.tree := by
      rw [hm]
      exact List.mem_cons_self _ _
    have hconc := matchFrom_toExpr e s0.tree _ m hmem0
    obtain ⟨q, hq, hselq⟩ := parent_split p2 s0.tree l i m hconc
    have hmemq : (l, i, m) ∈ indexed q.children :=
      sel_sub _ q.children _ (by rw [hselq]; exact List.mem_cons_self _ _)
    obtain ⟨pre, post, hch, hcl, hidx, hins⟩ := insertSib_split q.children l i m lbl b hmemq
    have hwalk := insertAtC_walk p2 s0.tree q l i lbl b hq
    rw [hins] at hwalk
    exact ⟨q, pre, post, hq, hch, hcl, hidx, rfl, hwalk⟩

/-- Witness for C6: the spec's example — inserting a host after host one on
the two-host tree yields three hosts in order original, new, original. -/
theorem c6_witness :
    exSession2.opened = true ∧
    matchFrom [Seg.labelIdx "host" 1] exSession2.tree =
      [(([] : CPath) ++ [("host", 1)], exHostA)] ∧
    validLabel "host" = true ∧
    Session.insert exSession2 [Seg.labelIdx "host" 1] "host" false = .ok (Session.mk
      (Node.mk "" none [exHostA, newNode "host", exHostB]) [] true) ∧
    (∃ q pre post, matchFrom (toExpr []) exSession2.tree = [(([] : CPath), q)] ∧
      q.children = pre ++ exHostA :: post ∧ exHostA.label = "host" ∧
      1 = countLabel "host" pre + 1 ∧
      newNode "host" = Node.mk "host" none [] ∧
      matchFrom (toExpr []) (insertAtC exSession2.tree (([] : CPath) ++ [("host", 1)])
          "host" false) =
        [(([] : CPath), Node.mk q.label q.value
          (pre ++ (if false then [newNode "host", exHostA] else [exHostA, newNode "host"])
            ++ post))]) := by
  refine ⟨rfl, rfl, rfl, ?_, ?_⟩
  · exact (c6_insert_position exSession2 [Seg.labelIdx "host" 1] [] "host" 1 exHostA
      "host" false rfl rfl rfl).1
  · exact (c6_insert_position exSession2 [Seg.labelIdx "host" 1] [] "host" 1 exHostA
      "host" false rfl rfl rfl).2

end Aug
